import Mathlib

/-!
Verification of the sentiment-analysis pipeline: the rollup statistics
calculator, the aggregation fold, and the dedup-upsert writer, embedded
from `sentiment_analysis.py` and `data_processing.py`.

Python dictionaries with string keys are embedded as association lists
(`List (String × _)`) in insertion order; `dict.get(k, 0)` becomes
`tallyGet`, and nested `defaultdict` accumulators become explicit
association-list states.  Percentages, computed with `/` and `* 100` on
Python numbers, are embedded as exact rationals (`ℚ`).
-/

namespace SentimentPipeline

/-- A sentiment tally: the `sentiments_dict` passed to
`calculate_sentiment_stats`, a mapping from sentiment label to count. -/
abbrev Tally := List (String × Nat)

/-- `d.get(k, 0)`: the first value bound to `k`, defaulting to `0`. -/
def tallyGet (d : Tally) (k : String) : Nat :=
  match d with
  | [] => 0
  | (k', v) :: rest => if k' = k then v else tallyGet rest k

/-- The record built by `calculate_sentiment_stats` when `total > 0`:
counts, total, and the three percentages. -/
structure Stats where
  pos_count : Nat
  neg_count : Nat
  neu_count : Nat
  total : Nat
  pos_pct : ℚ
  neg_pct : ℚ
  neu_pct : ℚ
  deriving Repr, DecidableEq

/-- `calculate_sentiment_stats(sentiments_dict)` from
`sentiment_analysis.py` lines 17–34: reads the `"positive"`,
`"negative"` and `"neutral"` counts, and returns the stats record when
`total > 0`, else `None`. -/
def calculate_sentiment_stats (sentiments_dict : Tally) : Option Stats :=
  let pos_count := tallyGet sentiments_dict "positive"
  let neg_count := tallyGet sentiments_dict "negative"
  let neu_count := tallyGet sentiments_dict "neutral"
  let total := pos_count + neg_count + neu_count
  if total > 0 then
    some {
      pos_count := pos_count
      neg_count := neg_count
      neu_count := neu_count
      total := total
      pos_pct := ((pos_count : ℚ) / (total : ℚ)) * 100
      neg_pct := ((neg_count : ℚ) / (total : ℚ)) * 100
      neu_pct := ((neu_count : ℚ) / (total : ℚ)) * 100 }
  else
    none

/-- The total of a tally, as `calculate_sentiment_stats` computes it. -/
def tallyTotal (d : Tally) : Nat :=
  tallyGet d "positive" + tallyGet d "negative" + tallyGet d "neutral"

theorem calculate_sentiment_stats_eq_none_iff (d : Tally) :
    calculate_sentiment_stats d = none ↔ tallyTotal d = 0 := by
  simp only [calculate_sentiment_stats, tallyTotal]
  by_cases h : 0 < tallyGet d "positive" + tallyGet d "negative" + tallyGet d "neutral"
  · rw [if_pos h]
    simp
    omega
  · rw [if_neg h]
    simp
    omega

theorem calculate_sentiment_stats_eq_some (d : Tally) (h : 0 < tallyTotal d) :
    calculate_sentiment_stats d = some {
      pos_count := tallyGet d "positive"
      neg_count := tallyGet d "negative"
      neu_count := tallyGet d "neutral"
      total := tallyTotal d
      pos_pct := ((tallyGet d "positive" : ℚ) / (tallyTotal d : ℚ)) * 100
      neg_pct := ((tallyGet d "negative" : ℚ) / (tallyTotal d : ℚ)) * 100
      neu_pct := ((tallyGet d "neutral" : ℚ) / (tallyTotal d : ℚ)) * 100 } := by
  unfold calculate_sentiment_stats
  simp only [tallyTotal] at h ⊢
  rw [if_pos h]

/-- C5: `stats(tally)` returns none iff the tally's total is 0; when the
total is positive it returns the three counts, the total, and the three
percentages `count/total*100`. -/
theorem c5_stats_contract (d : Tally) :
    (calculate_sentiment_stats d = none ↔ tallyTotal d = 0) ∧
    (0 < tallyTotal d →
      calculate_sentiment_stats d = some {
        pos_count := tallyGet d "positive"
        neg_count := tallyGet d "negative"
        neu_count := tallyGet d "neutral"
        total := tallyTotal d
        pos_pct := ((tallyGet d "positive" : ℚ) / (tallyTotal d : ℚ)) * 100
        neg_pct := ((tallyGet d "negative" : ℚ) / (tallyTotal d : ℚ)) * 100
        neu_pct := ((tallyGet d "neutral" : ℚ) / (tallyTotal d : ℚ)) * 100 }) :=
  ⟨calculate_sentiment_stats_eq_none_iff d,
   fun h => calculate_sentiment_stats_eq_some d h⟩

/-- Witness for C5 at the tally `{"positive" ↦ 3, "negative" ↦ 1}`. -/
theorem c5_stats_contract_witness :
    calculate_sentiment_stats [("positive", 3), ("negative", 1)] = some {
      pos_count := 3, neg_count := 1, neu_count := 0, total := 4
      pos_pct := 75, neg_pct := 25, neu_pct := 0 } := by
  have h := (c5_stats_contract [("positive", 3), ("negative", 1)]).2 (by decide)
  rw [h]
  simp [tallyGet, tallyTotal, Stats.mk.injEq, Option.some.injEq]
  norm_num

/-- C3: for every tally on which `calculate_sentiment_stats` returns a
stats record (equivalently, total > 0), the three percentages sum to
100 within 1e-6 (in the exact-rational embedding of the arithmetic the
sum is exactly 100). -/
theorem c3_percentage_closure (d : Tally) (s : Stats)
    (h : calculate_sentiment_stats d = some s) :
    |s.pos_pct + s.neg_pct + s.neu_pct - 100| ≤ 1 / 1000000 := by
  have htot : 0 < tallyTotal d := by
    by_contra hc
    have h0 : tallyTotal d = 0 := by omega
    rw [(calculate_sentiment_stats_eq_none_iff d).2 h0] at h
    exact Option.noConfusion h
  rw [calculate_sentiment_stats_eq_some d htot] at h
  have hs := Option.some.inj h
  have h1 : s.pos_pct = ((tallyGet d "positive" : ℚ) / (tallyTotal d : ℚ)) * 100 := by
    rw [← hs]
  have h2 : s.neg_pct = ((tallyGet d "negative" : ℚ) / (tallyTotal d : ℚ)) * 100 := by
    rw [← hs]
  have h3 : s.neu_pct = ((tallyGet d "neutral" : ℚ) / (tallyTotal d : ℚ)) * 100 := by
    rw [← hs]
  rw [h1, h2, h3]
  have hT : ((tallyTotal d : ℚ)) ≠ 0 := Nat.cast_ne_zero.mpr (by omega)
  have hTT : ((tallyTotal d : ℚ)) = (tallyGet d "positive" : ℚ) +
      (tallyGet d "negative" : ℚ) + (tallyGet d "neutral" : ℚ) := by
    simp only [tallyTotal]
    push_cast
    ring
  have hsum : ((tallyGet d "positive" : ℚ) / (tallyTotal d : ℚ)) * 100 +
      ((tallyGet d "negative" : ℚ) / (tallyTotal d : ℚ)) * 100 +
      ((tallyGet d "neutral" : ℚ) / (tallyTotal d : ℚ)) * 100 = 100 := by
    field_simp
    rw [hTT]
    ring
  rw [hsum]
  norm_num

/-- Witness for C3 at the tally `{"positive" ↦ 1, "neutral" ↦ 2}`. -/
theorem c3_percentage_closure_witness :
    ∃ s, calculate_sentiment_stats [("positive", 1), ("neutral", 2)] = some s ∧
      |s.pos_pct + s.neg_pct + s.neu_pct - 100| ≤ 1 / 1000000 := by
  refine ⟨_, rfl, c3_percentage_closure [("positive", 1), ("neutral", 2)] _ rfl⟩

theorem tallyGet_of_not_mem (d : Tally) (k : String)
    (h : ∀ kv ∈ d, kv.1 ≠ k) : tallyGet d k = 0 := by
  induction d with
  | nil => rfl
  | cons hd tl ih =>
    simp only [tallyGet]
    rw [if_neg (h hd (List.mem_cons_self hd tl))]
    exact ih fun kv hkv => h kv (List.mem_cons_of_mem hd hkv)

/-- C9: the stats computation reads only the `"positive"`, `"negative"`
and `"neutral"` entries — two tallies agreeing on those three keys get
identical stats — and a tally all of whose keys lie outside these three
labels yields none, exactly like an empty tally. -/
theorem c9_only_three_labels_read (d d' : Tally)
    (h : ∀ k ∈ ["positive", "negative", "neutral"], tallyGet d k = tallyGet d' k) :
    calculate_sentiment_stats d = calculate_sentiment_stats d' ∧
    ((∀ kv ∈ d, kv.1 ∉ ["positive", "negative", "neutral"]) →
      calculate_sentiment_stats d = none) := by
  have hp := h "positive" (by simp)
  have hn := h "negative" (by simp)
  have hu := h "neutral" (by simp)
  constructor
  · unfold calculate_sentiment_stats
    rw [hp, hn, hu]
  · intro hall
    rw [calculate_sentiment_stats_eq_none_iff]
    unfold tallyTotal
    rw [tallyGet_of_not_mem d _ (fun kv hkv => by
        have := hall kv hkv; simp at this; exact this.1),
      tallyGet_of_not_mem d _ (fun kv hkv => by
        have := hall kv hkv; simp at this; exact this.2.1),
      tallyGet_of_not_mem d _ (fun kv hkv => by
        have := hall kv hkv; simp at this; exact this.2.2)]

/-- Witness for C9: `{"sarcastic" ↦ 7}` behaves like the tally
`{"positive" ↦ 0}` and yields none. -/
theorem c9_only_three_labels_read_witness :
    calculate_sentiment_stats [("sarcastic", 7)] =
      calculate_sentiment_stats [("positive", 0)] ∧
    calculate_sentiment_stats [("sarcastic", 7)] = none := by
  have h := c9_only_three_labels_read [("sarcastic", 7)] [("positive", 0)]
    (by intro k hk; fin_cases hk <;> rfl)
  exact ⟨h.1, h.2 (by intro kv hkv; simp at hkv; subst hkv; decide)⟩

/-- A nested data dictionary mapping grouping key to sentiment tally, the
`data_dict` argument of `print_sentiment_table`. -/
abbrev DataDict := List (String × Tally)

/-- The keys of a data dictionary, in insertion order. -/
def dictKeys (d : DataDict) : List String := d.map Prod.fst

/-- `data_dict[key]` for a key known to be present: first binding. -/
def dictLookup (d : DataDict) (k : String) : Option Tally :=
  match d with
  | [] => none
  | (k', v) :: rest => if k' = k then some v else dictLookup rest k

/-- `print_sentiment_table(data_dict, header_label)` from
`sentiment_analysis.py` lines 36–45, embedded as the sequence of data
rows it prints: for each key in sorted order, a row `(key, stats)` when
`calculate_sentiment_stats` is truthy, and no row otherwise. -/
def print_sentiment_table (data_dict : DataDict) : List (String × Stats) :=
  ((dictKeys data_dict).mergeSort (fun a b => decide (a ≤ b))).filterMap fun k =>
    (dictLookup data_dict k).bind fun t =>
      (calculate_sentiment_stats t).map fun s => (k, s)

theorem dictLookup_mem {d : DataDict} {k : String} {t : Tally}
    (h : dictLookup d k = some t) : (k, t) ∈ d := by
  induction d with
  | nil => exact absurd h (by simp [dictLookup])
  | cons hd tl ih =>
    rw [dictLookup] at h
    by_cases hk : hd.1 = k
    · rw [if_pos hk] at h
      have : hd = (k, t) := by
        cases hd
        simp_all
      rw [this]
      exact List.mem_cons_self _ _
    · rw [if_neg hk] at h
      exact List.mem_cons_of_mem hd (ih h)

/-- C8: a grouping key all of whose tallies in the data dictionary have
total count 0 never appears in the printed statistics table. -/
theorem c8_empty_groups_excluded (d : DataDict) (k : String)
    (h : ∀ t : Tally, (k, t) ∈ d → tallyTotal t = 0) :
    k ∉ (print_sentiment_table d).map Prod.fst := by
  intro hmem
  rcases List.mem_map.mp hmem with ⟨⟨k', s⟩, hrow, hfst⟩
  rcases List.mem_filterMap.mp hrow with ⟨k'', hk'', hf⟩
  rcases hlook : dictLookup d k'' with _ | t
  · rw [hlook] at hf
    exact Option.noConfusion hf
  · rw [hlook, Option.some_bind] at hf
    rcases hstats : calculate_sentiment_stats t with _ | s'
    · rw [hstats] at hf
      exact Option.noConfusion hf
    · rw [hstats, Option.map_some'] at hf
      have hpair := Option.some.inj hf
      have hk1 : k'' = k' := congrArg Prod.fst hpair
      subst hk1
      simp only at hfst
      subst hfst
      have hmem' : (k'', t) ∈ d := dictLookup_mem hlook
      have h0 := h t hmem'
      rw [(calculate_sentiment_stats_eq_none_iff t).mpr h0] at hstats
      exact Option.noConfusion hstats

/-- Witness for C8: the key `"noon"` with an all-zero tally does not
appear in the table, while `"morning"` does. -/
theorem c8_empty_groups_excluded_witness :
    "noon" ∉ (print_sentiment_table
      [("morning", [("positive", 2)]), ("noon", [("positive", 0)])]).map Prod.fst := by
  exact c8_empty_groups_excluded _ "noon"
    (by intro t ht; simp at ht; subst ht; decide)

/-- One element of the `stats_list` handed to `find_peaks`: a stats
record augmented with its grouping key (`stats['period'] = time_period`
in the caller at lines 127–132). -/
structure PeriodStats where
  period : String
  pos_count : Nat
  neg_count : Nat
  neu_count : Nat
  total : Nat
  pos_pct : ℚ
  neg_pct : ℚ
  neu_pct : ℚ
  deriving Repr, DecidableEq

/-- The record returned by `find_peaks`. -/
structure Peaks where
  most_positive : PeriodStats
  most_negative : PeriodStats
  most_neutral : PeriodStats
  most_active : PeriodStats
  deriving Repr, DecidableEq

/-- Python `max(iterable, key=f)` on a non-empty list: scans left to
right keeping the current maximum, replacing it only on a strictly
greater key, so the first maximal element wins. -/
def pymax {β : Type} [LinearOrder β] (f : PeriodStats → β)
    (a : PeriodStats) (l : List PeriodStats) : PeriodStats :=
  l.foldl (fun acc x => if f acc < f x then x else acc) a

/-- `find_peaks(stats_list)` from `sentiment_analysis.py` lines 47–57:
`None` on an empty list, otherwise the four independent maxima. -/
def find_peaks (stats_list : List PeriodStats) : Option Peaks :=
  match stats_list with
  | [] => none
  | a :: rest => some {
      most_positive := pymax (fun x => x.pos_pct) a rest
      most_negative := pymax (fun x => x.neg_pct) a rest
      most_neutral := pymax (fun x => x.neu_pct) a rest
      most_active := pymax (fun x => x.total) a rest }

theorem split_all_le {α β : Type} [LinearOrder β] {f : α → β}
    {l l₁ l₂ : List α} {w : α} (hs : l = l₁ ++ w :: l₂)
    (hlt : ∀ x ∈ l₁, f x < f w) (hle : ∀ x ∈ l₂, f x ≤ f w) :
    ∀ x ∈ l, f x ≤ f w := by
  intro x hx
  rw [hs] at hx
  rcases List.mem_append.mp hx with hm | hm
  · exact le_of_lt (hlt x hm)
  · rcases List.mem_cons.mp hm with hm' | hm'
    · rw [hm']
    · exact hle x hm'

theorem pymax_split {β : Type} [LinearOrder β] (f : PeriodStats → β)
    (a : PeriodStats) (l : List PeriodStats) :
    ∃ l₁ l₂, a :: l = l₁ ++ pymax f a l :: l₂ ∧
      (∀ x ∈ l₁, f x < f (pymax f a l)) ∧
      (∀ x ∈ l₂, f x ≤ f (pymax f a l)) := by
  induction l generalizing a with
  | nil => exact ⟨[], [], rfl, by simp, by simp⟩
  | cons b t ih =>
    by_cases hba : f a < f b
    · have hstep : pymax f a (b :: t) = pymax f b t := by
        simp only [pymax, List.foldl_cons, if_pos hba]
      rw [hstep]
      rcases ih b with ⟨l₁, l₂, hsplit, hlt, hle⟩
      have hbw : f b ≤ f (pymax f b t) :=
        split_all_le hsplit hlt hle b (List.mem_cons_self _ _)
      refine ⟨a :: l₁, l₂, ?_, ?_, hle⟩
      · rw [List.cons_append, ← hsplit]
      · intro x hx
        rcases List.mem_cons.mp hx with hxa | hxl
        · rw [hxa]
          exact lt_of_lt_of_le hba hbw
        · exact hlt x hxl
    · have hstep : pymax f a (b :: t) = pymax f a t := by
        simp only [pymax, List.foldl_cons, if_neg hba]
      rw [hstep]
      have hab : f b ≤ f a := le_of_not_lt hba
      rcases ih a with ⟨l₁, l₂, hsplit, hlt, hle⟩
      rcases l₁ with _ | ⟨c, l₁'⟩
      · have hhd : a = pymax f a t := by
          have := congrArg List.head? hsplit
          simpa using this
        have htl : t = l₂ := by
          have := congrArg List.tail hsplit
          simpa using this
        refine ⟨[], b :: l₂, ?_, by simp, ?_⟩
        · rw [List.nil_append, ← hhd, htl]
        · intro x hx
          rcases List.mem_cons.mp hx with hxb | hxl
          · rw [hxb, ← hhd]
            exact hab
          · exact hle x hxl
      · have hca : c = a := by
          have := congrArg List.head? hsplit
          simpa using this.symm
        have htt : t = l₁' ++ pymax f a t :: l₂ := by
          have := congrArg List.tail hsplit
          simpa using this
        have haw : f a < f (pymax f a t) := by
          have : c ∈ c :: l₁' := List.mem_cons_self _ _
          have := hlt c this
          rw [hca] at this
          exact this
        refine ⟨a :: b :: l₁', l₂, ?_, ?_, hle⟩
        · rw [List.cons_append, List.cons_append, ← htt]
        · intro x hx
          rcases List.mem_cons.mp hx with hxa | hx'
          · rw [hxa]
            exact haw
          · rcases List.mem_cons.mp hx' with hxb | hxl
            · rw [hxb]
              exact lt_of_le_of_lt hab haw
            · exact hlt x (List.mem_cons_of_mem c hxl)

/-- A value `w` is the first maximum of `l` under `f`: `l` splits as
`l₁ ++ w :: l₂` with everything before `w` strictly below it and
everything after at most it. -/
def IsFirstMax {β : Type} [LinearOrder β] (f : PeriodStats → β)
    (l : List PeriodStats) (w : PeriodStats) : Prop :=
  ∃ l₁ l₂, l = l₁ ++ w :: l₂ ∧ (∀ x ∈ l₁, f x < f w) ∧ (∀ x ∈ l₂, f x ≤ f w)

/-- C6: `find_peaks` returns none exactly on the empty list; otherwise
each of the four winners is the first element of the input attaining
the maximum of its metric (positive %, negative %, neutral %, total);
on `[{period:"morning", pos%:80, total:10}, {period:"night", pos%:20,
total:50}]` the most-positive winner is the morning entry and the
most-active winner is the night entry. -/
theorem c6_find_peaks_contract :
    (∀ l : List PeriodStats, find_peaks l = none ↔ l = []) ∧
    (∀ (l : List PeriodStats) (p : Peaks), find_peaks l = some p →
      IsFirstMax (fun x => x.pos_pct) l p.most_positive ∧
      IsFirstMax (fun x => x.neg_pct) l p.most_negative ∧
      IsFirstMax (fun x => x.neu_pct) l p.most_neutral ∧
      IsFirstMax (fun x => x.total) l p.most_active) ∧
    ((find_peaks
        [⟨"morning", 8, 1, 1, 10, 80, 10, 10⟩,
         ⟨"night", 10, 20, 20, 50, 20, 40, 40⟩]).map
        (fun p => (p.most_positive.period, p.most_active.period)) =
      some ("morning", "night")) := by
  refine ⟨?_, ?_, ?_⟩
  · intro l
    cases l with
    | nil => simp [find_peaks]
    | cons a rest => simp [find_peaks]
  · intro l p hp
    cases l with
    | nil => exact absurd hp (by simp [find_peaks])
    | cons a rest =>
      have hp' := Option.some.inj hp
      refine ⟨?_, ?_, ?_, ?_⟩
      · rcases pymax_split (fun x => x.pos_pct) a rest with ⟨l₁, l₂, hs, h1, h2⟩
        exact ⟨l₁, l₂, by rw [← hp']; exact hs, by rw [← hp']; exact h1,
          by rw [← hp']; exact h2⟩
      · rcases pymax_split (fun x => x.neg_pct) a rest with ⟨l₁, l₂, hs, h1, h2⟩
        exact ⟨l₁, l₂, by rw [← hp']; exact hs, by rw [← hp']; exact h1,
          by rw [← hp']; exact h2⟩
      · rcases pymax_split (fun x => x.neu_pct) a rest with ⟨l₁, l₂, hs, h1, h2⟩
        exact ⟨l₁, l₂, by rw [← hp']; exact hs, by rw [← hp']; exact h1,
          by rw [← hp']; exact h2⟩
      · rcases pymax_split (fun x => x.total) a rest with ⟨l₁, l₂, hs, h1, h2⟩
        exact ⟨l₁, l₂, by rw [← hp']; exact hs, by rw [← hp']; exact h1,
          by rw [← hp']; exact h2⟩
  · simp only [find_peaks, pymax, List.foldl, Option.map]
    norm_num

/-- Witness for C6: on the two-element example list, the most-positive
winner is the morning entry, placed first with the night entry strictly
below it, and the most-active winner is the night entry. -/
theorem c6_find_peaks_contract_witness :
    ∃ p, find_peaks
        [⟨"morning", 8, 1, 1, 10, 80, 10, 10⟩,
         ⟨"night", 10, 20, 20, 50, 20, 40, 40⟩] = some p ∧
      IsFirstMax (fun x => x.pos_pct)
        [⟨"morning", 8, 1, 1, 10, 80, 10, 10⟩,
         ⟨"night", 10, 20, 20, 50, 20, 40, 40⟩] p.most_positive ∧
      IsFirstMax (fun x => x.total)
        [⟨"morning", 8, 1, 1, 10, 80, 10, 10⟩,
         ⟨"night", 10, 20, 20, 50, 20, 40, 40⟩] p.most_active := by
  have h := c6_find_peaks_contract.2.1
    [⟨"morning", 8, 1, 1, 10, 80, 10, 10⟩,
     ⟨"night", 10, 20, 20, 50, 20, 40, 40⟩]
    { most_positive := ⟨"morning", 8, 1, 1, 10, 80, 10, 10⟩
      most_negative := ⟨"night", 10, 20, 20, 50, 20, 40, 40⟩
      most_neutral := ⟨"night", 10, 20, 20, 50, 20, 40, 40⟩
      most_active := ⟨"night", 10, 20, 20, 50, 20, 40, 40⟩ }
    (by simp only [find_peaks, pymax, List.foldl]; norm_num)
  exact ⟨_, by simp only [find_peaks, pymax, List.foldl]; norm_num,
    h.1, h.2.2.2⟩

/-- A Python runtime exception raised by the fold. -/
inductive PyError where
  | typeError : PyError
  | keyError : PyError
  deriving Repr, DecidableEq

/-- One flat aggregation row: `result["_id"]` is a small dict embedded
as an association list in insertion order, `result["count"]` a count. -/
structure AggRow where
  id : List (String × String)
  count : Nat
  deriving Repr, DecidableEq

/-- `some_dict[k]` on a string-to-string dict: first binding. -/
def rowKeyLookup (keys : List (String × String)) (k : String) : Option String :=
  match keys with
  | [] => none
  | (k', v) :: rest => if k' = k then some v else rowKeyLookup rest k

/-- `data_dict[k]` on the outer defaultdict: existing binding or the
freshly created empty inner dict. -/
def dataDictGet (d : DataDict) (k : String) : Tally :=
  match d with
  | [] => []
  | (k', v) :: rest => if k' = k then v else dataDictGet rest k

/-- Dict assignment `t[k] = v`: replace the first binding in place, or
append a new binding at the end (Python dict insertion order). -/
def tallySet (t : Tally) (k : String) (v : Nat) : Tally :=
  match t with
  | [] => [(k, v)]
  | (k', v') :: rest => if k' = k then (k, v) :: rest else (k', v') :: tallySet rest k v

/-- Outer dict assignment `d[k] = t`, same in-place/append discipline. -/
def dataDictSet (d : DataDict) (k : String) (t : Tally) : DataDict :=
  match d with
  | [] => [(k, t)]
  | (k', t') :: rest => if k' = k then (k, t) :: rest else (k', t') :: dataDictSet rest k t

/-- The body of the loop in `process_aggregation_results`
(`sentiment_analysis.py` lines 62–76) for one row, starting from the
accumulated `data_dict`.

For a 2-entry key dict it writes `data_dict[first value][sentiment] =
count`.  For a 3-entry key dict the code first reads the three named
keys (`KeyError` if one is absent), then evaluates
`isinstance(data_dict[age_group], defaultdict)`: that access creates
(or finds) a `defaultdict(int)`, which *is* a `defaultdict`, so the
guard never replaces it with a two-level dict; the following
`data_dict[age_group][time_period][sentiment] = count` therefore
subscript-assigns into the `int` `0` produced by
`data_dict[age_group][time_period]` and raises `TypeError`.  Any other
key arity falls through both branches and leaves `data_dict`
untouched. -/
def process_step (data_dict : DataDict) (row : AggRow) : Except PyError DataDict :=
  let keys := row.id
  if keys.length = 2 then
    match keys.head? with
    | none => Except.error PyError.typeError
    | some (_, primary_key) =>
      match rowKeyLookup keys "sentiment" with
      | none => Except.error PyError.keyError
      | some sentiment =>
        Except.ok (dataDictSet data_dict primary_key
          (tallySet (dataDictGet data_dict primary_key) sentiment row.count))
  else if keys.length = 3 then
    match rowKeyLookup keys "age_group", rowKeyLookup keys "time_period",
        rowKeyLookup keys "sentiment" with
    | some _, some _, some _ => Except.error PyError.typeError
    | _, _, _ => Except.error PyError.keyError
  else
    Except.ok data_dict

/-- `process_aggregation_results(results)` from `sentiment_analysis.py`
lines 59–77: the fold of `process_step` over the flat rows, starting
from an empty accumulator; a raised exception aborts the fold. -/
def process_aggregation_results (results : List AggRow) : Except PyError DataDict :=
  results.foldlM process_step []

/-- C1 (behavior at the claim's two inputs): folding the single 2-key
row `({time:"morning", sentiment:"positive"}, 5)` does yield
`{"morning": {"positive": 5}}`, but folding the single 3-key row
`({age_group:"0-30", time_period:"morning", sentiment:"positive"}, 5)`
raises `TypeError` instead of yielding the 3-level nested tally: the
`isinstance(..., defaultdict)` guard can never fire, since the outer
default factory already produces a `defaultdict`. -/
theorem c1_arity_routing_behavior :
    process_aggregation_results
        [⟨[("time", "morning"), ("sentiment", "positive")], 5⟩] =
      Except.ok [("morning", [("positive", 5)])] ∧
    process_aggregation_results
        [⟨[("age_group", "0-30"), ("time_period", "morning"),
           ("sentiment", "positive")], 5⟩] =
      Except.error PyError.typeError := by
  constructor
  · simp [process_aggregation_results, process_step, rowKeyLookup,
      dataDictGet, dataDictSet, tallySet]
  · simp [process_aggregation_results, process_step, rowKeyLookup]

/-- C10: a row whose grouping-key dict has an entry count other than 2
or 3 is silently ignored: the accumulated nested tally is returned
unchanged and no exception is raised. -/
theorem c10_other_arity_rows_ignored (d : DataDict) (row : AggRow)
    (h2 : row.id.length ≠ 2) (h3 : row.id.length ≠ 3) :
    process_step d row = Except.ok d := by
  simp only [process_step, if_neg h2, if_neg h3]

/-- Witness for C10: a 1-key row leaves a non-trivial accumulator
unchanged. -/
theorem c10_other_arity_rows_ignored_witness :
    process_step [("morning", [("positive", 5)])]
        ⟨[("sentiment", "positive")], 7⟩ =
      Except.ok [("morning", [("positive", 5)])] :=
  c10_other_arity_rows_ignored _ _ (by decide) (by decide)

/-- A processed record document, built in the loop at
`data_processing.py` lines 104–114: the fields `textID`, `text`,
`sentiment`, `Time of Tweet`, `Age of User`, `processed_timestamp`
(spaces in the Python keys become underscores here). -/
structure PRecord where
  textID : String
  text : String
  sentiment : String
  time_of_tweet : String
  age_of_user : String
  processed_timestamp : Nat
  deriving Repr, DecidableEq

/-- The document store collection as an ordered list of documents. -/
abbrev Store := List PRecord

/-- The first document matching the filter `{"textID": i}`. -/
def findId (store : Store) (i : String) : Option PRecord :=
  match store with
  | [] => none
  | d :: rest => if d.textID = i then some d else findId rest i

/-- Whether some document matches `{"textID": i}`. -/
def hasId (store : Store) (i : String) : Bool :=
  (findId store i).isSome

/-- Replace the first document whose `textID` matches `r` by `r`
(the `$set` of the full record rewrites every stored field). -/
def updateFirst (store : Store) (r : PRecord) : Store :=
  match store with
  | [] => []
  | d :: rest => if d.textID = r.textID then r :: rest else d :: updateFirst rest r

/-- One `UpdateOne({"textID": record["textID"]}, {"$set": record},
upsert=True)` (`data_processing.py` lines 127–131): update the first
matching document, or insert the record when none matches. -/
def applyUpdateOne (store : Store) (r : PRecord) : Store :=
  match findId store r.textID with
  | some _ => updateFirst store r
  | none => store ++ [r]

/-- Apply a sequence of upsert operations in order. -/
def upsertAll (store : Store) (ops : List PRecord) : Store :=
  ops.foldl applyUpdateOne store

/-- `collection.bulk_write(batch)` (ordered): the final store, the
`upserted_count` (operations that inserted), and the `modified_count`
(updates that actually changed the matched document). -/
def bulk_write (store : Store) (batch : List PRecord) : Store × Nat × Nat :=
  match batch with
  | [] => (store, 0, 0)
  | r :: rest =>
    match findId store r.textID with
    | some d =>
      let res := bulk_write (updateFirst store r) rest
      (res.1, res.2.1, (if d = r then 0 else 1) + res.2.2)
    | none =>
      let res := bulk_write (store ++ [r]) rest
      (res.1, res.2.1 + 1, res.2.2)

/-- The write loop's running report (`upsert_count`, `update_count`,
`error_count` at `data_processing.py` lines 118–120) plus the store. -/
structure WriteReport where
  store : Store
  upsert_count : Nat
  update_count : Nat
  error_count : Nat
  deriving Repr, DecidableEq

/-- `batch_size = 1000` (`data_processing.py` line 135). -/
def batch_size : Nat := 1000

/-- Fuel-indexed slicing `bulk_operations[i:i+batch_size]`; the fuel
(at least the list length) only forces termination. -/
def chunkedGo : Nat → List PRecord → List (List PRecord)
  | 0, _ => []
  | _ + 1, [] => []
  | fuel + 1, r :: rest =>
    ((r :: rest).take batch_size) :: chunkedGo fuel ((r :: rest).drop batch_size)

/-- The batch partition produced by
`for i in range(0, len(bulk_operations), batch_size)`. -/
def chunked (ops : List PRecord) : List (List PRecord) :=
  chunkedGo ops.length ops

/-- The batch loop at `data_processing.py` lines 136–144: each batch is
submitted once; a batch on which the store fails (modelled by the
oracle `fail` on the batch index) only adds its operation count to
`error_count`, and the loop continues with the next batch. -/
def runBatches (fail : Nat → Bool) : Nat → List (List PRecord) → WriteReport → WriteReport
  | _, [], st => st
  | i, b :: bs, st =>
    if fail i then
      runBatches fail (i + 1) bs { st with error_count := st.error_count + b.length }
    else
      let res := bulk_write st.store b
      runBatches fail (i + 1) bs
        { store := res.1
          upsert_count := st.upsert_count + res.2.1
          update_count := st.update_count + res.2.2
          error_count := st.error_count }

/-- The whole storage phase (`data_processing.py` lines 116–149):
build one upsert per record, slice into batches, submit each batch. -/
def write (fail : Nat → Bool) (store : Store) (records : List PRecord) : WriteReport :=
  runBatches fail 0 (chunked records) ⟨store, 0, 0, 0⟩

/-- A run of `write` in which the store accepts every batch. -/
def writeOk (store : Store) (records : List PRecord) : WriteReport :=
  write (fun _ => false) store records

/-- The last record of `R` whose `textID` is `i`, if any: the record
"processed last" for that key. -/
def lastWith (i : String) : List PRecord → Option PRecord
  | [] => none
  | r :: rest =>
    match lastWith i rest with
    | some x => some x
    | none => if r.textID = i then some r else none

theorem chunkedGo_flatten (fuel : Nat) :
    ∀ l : List PRecord, l.length ≤ fuel → (chunkedGo fuel l).flatten = l := by
  induction fuel with
  | zero =>
    intro l hl
    have : l = [] := List.eq_nil_of_length_eq_zero (Nat.le_zero.mp hl)
    rw [this]
    rfl
  | succ fuel ih =>
    intro l hl
    cases l with
    | nil => rfl
    | cons r rest =>
      rw [chunkedGo, List.flatten_cons]
      have hlen : ((r :: rest).drop batch_size).length ≤ fuel := by
        rw [List.length_drop]
        simp only [List.length_cons] at hl ⊢
        have : 0 < batch_size := by decide
        omega
      rw [ih _ hlen, List.take_append_drop]

theorem chunked_flatten (ops : List PRecord) : (chunked ops).flatten = ops :=
  chunkedGo_flatten ops.length ops le_rfl

theorem chunkedGo_length_le (fuel : Nat) :
    ∀ l b, b ∈ chunkedGo fuel l → b.length ≤ batch_size := by
  induction fuel with
  | zero =>
    intro l b hb
    exact absurd hb (by simp [chunkedGo])
  | succ fuel ih =>
    intro l b hb
    cases l with
    | nil => exact absurd hb (by simp [chunkedGo])
    | cons r rest =>
      rw [chunkedGo] at hb
      rcases List.mem_cons.mp hb with hb' | hb'
      · rw [hb', List.length_take]
        exact min_le_left _ _
      · exact ih _ b hb'

theorem bulk_write_store (batch : List PRecord) :
    ∀ store, (bulk_write store batch).1 = upsertAll store batch := by
  induction batch with
  | nil => intro store; rfl
  | cons r rest ih =>
    intro store
    rw [bulk_write]
    rcases hf : findId store r.textID with _ | d
    · simp only [upsertAll, List.foldl_cons, applyUpdateOne, hf]
      exact ih (store ++ [r])
    · simp only [upsertAll, List.foldl_cons, applyUpdateOne, hf]
      exact ih (updateFirst store r)

/-- The `textID` column of the store. -/
def idsOf (store : Store) : List String := store.map PRecord.textID

theorem findId_some_mem {store : Store} {i : String} {d : PRecord}
    (h : findId store i = some d) : d ∈ store ∧ d.textID = i := by
  induction store with
  | nil => exact absurd h (by simp [findId])
  | cons e rest ih =>
    rw [findId] at h
    by_cases he : e.textID = i
    · rw [if_pos he] at h
      have := Option.some.inj h
      exact ⟨this ▸ List.mem_cons_self _ _, this ▸ he⟩
    · rw [if_neg he] at h
      exact ⟨List.mem_cons_of_mem e (ih h).1, (ih h).2⟩

theorem hasId_iff_mem_idsOf (store : Store) (i : String) :
    hasId store i = true ↔ i ∈ idsOf store := by
  induction store with
  | nil => simp [hasId, findId, idsOf]
  | cons e rest ih =>
    simp only [hasId, findId, idsOf, List.map_cons, List.mem_cons]
    by_cases he : e.textID = i
    · simp [if_pos he, he]
    · simp only [if_neg he]
      rw [← idsOf]
      constructor
      · intro h
        exact Or.inr ((ih).mp h)
      · intro h
        rcases h with h | h
        · exact absurd h.symm he
        · exact (ih).mpr h

theorem idsOf_updateFirst (r : PRecord) :
    ∀ store : Store, idsOf (updateFirst store r) = idsOf store := by
  intro store
  induction store with
  | nil => rfl
  | cons e rest ih =>
    rw [updateFirst]
    by_cases he : e.textID = r.textID
    · rw [if_pos he]
      simp only [idsOf, List.map_cons]
      rw [he]
    · rw [if_neg he]
      simp only [idsOf, List.map_cons]
      rw [← idsOf, ← idsOf, ih]

theorem mem_updateFirst {store : Store} {r d : PRecord}
    (h : d ∈ updateFirst store r) : d = r ∨ d ∈ store := by
  induction store with
  | nil => exact absurd h (by simp [updateFirst])
  | cons e rest ih =>
    rw [updateFirst] at h
    by_cases he : e.textID = r.textID
    · rw [if_pos he] at h
      rcases List.mem_cons.mp h with h' | h'
      · exact Or.inl h'
      · exact Or.inr (List.mem_cons_of_mem e h')
    · rw [if_neg he] at h
      rcases List.mem_cons.mp h with h' | h'
      · exact Or.inr (h' ▸ List.mem_cons_self e rest)
      · rcases ih h' with h'' | h''
        · exact Or.inl h''
        · exact Or.inr (List.mem_cons_of_mem e h'')

theorem updateFirst_unique {r d : PRecord} :
    ∀ {store : Store}, (idsOf store).Nodup → d ∈ updateFirst store r →
      d.textID = r.textID → d = r := by
  intro store
  induction store with
  | nil =>
    intro _ h _
    exact absurd h (by simp [updateFirst])
  | cons e rest ih =>
    intro hnodup hmem hid
    have hnodup' : (idsOf rest).Nodup ∧ e.textID ∉ idsOf rest := by
      simp only [idsOf, List.map_cons, List.nodup_cons] at hnodup
      exact ⟨hnodup.2, hnodup.1⟩
    rw [updateFirst] at hmem
    by_cases he : e.textID = r.textID
    · rw [if_pos he] at hmem
      rcases List.mem_cons.mp hmem with h' | h'
      · exact h'
      · exfalso
        apply hnodup'.2
        rw [he, ← hid]
        exact List.mem_map_of_mem PRecord.textID h'
    · rw [if_neg he] at hmem
      rcases List.mem_cons.mp hmem with h' | h'
      · exact absurd (h' ▸ hid) he
      · exact ih hnodup'.1 h' hid

theorem idsOf_append (s : Store) (r : PRecord) :
    idsOf (s ++ [r]) = idsOf s ++ [r.textID] := by
  simp [idsOf]

theorem nodup_applyUpdateOne {store : Store} (r : PRecord)
    (h : (idsOf store).Nodup) : (idsOf (applyUpdateOne store r)).Nodup := by
  rw [applyUpdateOne]
  rcases hf : findId store r.textID with _ | d
  · rw [idsOf_append]
    have hnot : r.textID ∉ idsOf store := by
      intro hmem
      have := (hasId_iff_mem_idsOf store r.textID).mpr hmem
      rw [hasId, hf] at this
      exact Bool.noConfusion this
    simp [List.nodup_append, h, hnot]
  · rw [idsOf_updateFirst]
    exact h

theorem hasId_applyUpdateOne_mono {store : Store} {i : String} (r : PRecord)
    (h : hasId store i = true) : hasId (applyUpdateOne store r) i = true := by
  rw [applyUpdateOne]
  rcases hf : findId store r.textID with _ | d
  · rw [hasId_iff_mem_idsOf, idsOf_append]
    exact List.mem_append_left _ ((hasId_iff_mem_idsOf store i).mp h)
  · rw [hasId_iff_mem_idsOf, idsOf_updateFirst]
    exact (hasId_iff_mem_idsOf store i).mp h

theorem nodup_upsertAll (R : List PRecord) :
    ∀ store : Store, (idsOf store).Nodup → (idsOf (upsertAll store R)).Nodup := by
  induction R with
  | nil => intro store h; exact h
  | cons r R' ih =>
    intro store h
    rw [upsertAll, List.foldl_cons]
    exact ih _ (nodup_applyUpdateOne r h)

theorem hasId_upsertAll_mono (R : List PRecord) :
    ∀ {store : Store} {i : String}, hasId store i = true →
      hasId (upsertAll store R) i = true := by
  induction R with
  | nil => intro store i h; exact h
  | cons r R' ih =>
    intro store i h
    rw [upsertAll, List.foldl_cons]
    exact ih (hasId_applyUpdateOne_mono r h)

theorem hasId_upsertAll_of_mem {R : List PRecord} {r : PRecord} (hr : r ∈ R) :
    ∀ store : Store, hasId (upsertAll store R) r.textID = true := by
  induction R with
  | nil => exact absurd hr (List.not_mem_nil r)
  | cons a R' ih =>
    intro store
    rw [upsertAll, List.foldl_cons]
    rcases List.mem_cons.mp hr with h | h
    · apply hasId_upsertAll_mono
      rw [applyUpdateOne]
      rcases hf : findId store a.textID with _ | d
      · rw [hasId_iff_mem_idsOf, idsOf_append, h]
        exact List.mem_append_right _ (List.mem_singleton_self _)
      · rw [hasId_iff_mem_idsOf, idsOf_updateFirst, h]
        rcases findId_some_mem hf with ⟨hd, hid⟩
        rw [← hid]
        exact List.mem_map_of_mem PRecord.textID hd
    · exact ih h _

theorem lastWith_eq_none_iff (i : String) (R : List PRecord) :
    lastWith i R = none ↔ ∀ r ∈ R, r.textID ≠ i := by
  induction R with
  | nil => simp [lastWith]
  | cons r R' ih =>
    rw [lastWith]
    rcases h' : lastWith i R' with _ | x
    · by_cases hr : r.textID = i
      · simp only [if_pos hr]
        constructor
        · intro h
          exact Option.noConfusion h
        · intro h
          exact absurd hr (h r (List.mem_cons_self _ _))
      · simp only [if_neg hr]
        constructor
        · intro _
          intro a ha
          rcases List.mem_cons.mp ha with h'' | h''
          · exact h'' ▸ hr
          · exact (ih.mp h') a h''
        · intro _
          trivial
    · constructor
      · intro h
        exact Option.noConfusion h
      · intro h
        exfalso
        have := ih.mpr fun a ha => h a (List.mem_cons_of_mem r ha)
        rw [this] at h'
        exact Option.noConfusion h'

theorem lastWith_cons_of_ne {i : String} {r : PRecord} (R : List PRecord)
    (h : r.textID ≠ i) : lastWith i (r :: R) = lastWith i R := by
  rw [lastWith]
  rcases h' : lastWith i R with _ | x
  · rw [if_neg h]
  · rfl

theorem lastWith_cons_of_eq {i : String} {r : PRecord} (R : List PRecord)
    (h : r.textID = i) : lastWith i (r :: R) = some ((lastWith i R).getD r) := by
  rw [lastWith]
  rcases h' : lastWith i R with _ | x
  · rw [if_pos h]
    rfl
  · rfl

/-- Every document of the final store either came through unchanged
from the initial store, untouched by any operation, or is the last
operation record with its key. -/
theorem upsertAll_mem_char (R : List PRecord) :
    ∀ (s : Store), (idsOf s).Nodup → ∀ d ∈ upsertAll s R,
      (d ∈ s ∧ ∀ r ∈ R, r.textID ≠ d.textID) ∨ lastWith d.textID R = some d := by
  induction R with
  | nil =>
    intro s _ d hd
    exact Or.inl ⟨hd, by simp⟩
  | cons r R' ih =>
    intro s hnodup d hd
    rw [upsertAll, List.foldl_cons] at hd
    rcases ih (applyUpdateOne s r) (nodup_applyUpdateOne r hnodup) d hd with
      ⟨hmem, hnone⟩ | hlast
    · by_cases hrd : r.textID = d.textID
      · right
        have hnone' : lastWith d.textID R' = none :=
          (lastWith_eq_none_iff _ _).mpr hnone
        rw [lastWith_cons_of_eq R' hrd, hnone']
        have hdr : d = r := by
          rw [applyUpdateOne] at hmem
          rcases hf : findId s r.textID with _ | d₀
          · rw [hf] at hmem
            rcases List.mem_append.mp hmem with h' | h'
            · exfalso
              have : hasId s r.textID = true := by
                rw [hasId_iff_mem_idsOf, hrd]
                exact List.mem_map_of_mem PRecord.textID h'
              rw [hasId, hf] at this
              exact Bool.noConfusion this
            · exact List.mem_singleton.mp h'
          · rw [hf] at hmem
            exact updateFirst_unique hnodup hmem hrd.symm
        rw [hdr]
        rfl
      · left
        constructor
        · rw [applyUpdateOne] at hmem
          rcases hf : findId s r.textID with _ | d₀
          · rw [hf] at hmem
            rcases List.mem_append.mp hmem with h' | h'
            · exact h'
            · exact absurd (congrArg PRecord.textID (List.mem_singleton.mp h')).symm hrd
          · rw [hf] at hmem
            rcases mem_updateFirst hmem with h' | h'
            · exact absurd (congrArg PRecord.textID h').symm hrd
            · exact h'
        · intro a ha
          rcases List.mem_cons.mp ha with h' | h'
          · exact h' ▸ hrd
          · exact hnone a h'
    · right
      rw [lastWith]
      rw [hlast]

/-- Replacing the first `r`-keyed document commutes with substituting
each document by the last operation bearing its key. -/
theorem updateFirst_map_lastWith (r : PRecord) (R' : List PRecord) :
    ∀ t : Store, (idsOf t).Nodup →
      (updateFirst t r).map (fun d => (lastWith d.textID R').getD d) =
        t.map (fun d => (lastWith d.textID (r :: R')).getD d) := by
  intro t
  induction t with
  | nil => intro _; rfl
  | cons e t' ih =>
    intro hnodup
    have hn' : (idsOf t').Nodup ∧ e.textID ∉ idsOf t' := by
      simp only [idsOf, List.map_cons, List.nodup_cons] at hnodup
      exact ⟨hnodup.2, hnodup.1⟩
    rw [updateFirst]
    by_cases he : e.textID = r.textID
    · rw [if_pos he]
      simp only [List.map_cons]
      congr 1
      · rw [lastWith_cons_of_eq R' (he.symm ▸ rfl)]
        rw [Option.getD_some, he]
      · apply List.map_congr_left
        intro d hd
        have hne : r.textID ≠ d.textID := by
          intro hcontra
          apply hn'.2
          rw [he, hcontra]
          exact List.mem_map_of_mem PRecord.textID hd
        rw [lastWith_cons_of_ne R' hne]
    · rw [if_neg he]
      simp only [List.map_cons]
      congr 1
      · rw [lastWith_cons_of_ne R' (fun hc => he hc.symm)]
      · exact ih hn'.1

/-- Folding `updateFirst` over operations substitutes each stored
document by the last operation with its key (when keys are unique). -/
theorem foldl_updateFirst_map (R : List PRecord) :
    ∀ t : Store, (idsOf t).Nodup →
      R.foldl updateFirst t = t.map (fun d => (lastWith d.textID R).getD d) := by
  induction R with
  | nil =>
    intro t _
    rw [List.foldl_nil]
    have : ∀ d ∈ t, (lastWith d.textID ([] : List PRecord)).getD d = id d := by
      intro d _
      rfl
    rw [List.map_congr_left this, List.map_id]
  | cons r R' ih =>
    intro t hnodup
    rw [List.foldl_cons]
    have hn : (idsOf (updateFirst t r)).Nodup := by
      rw [idsOf_updateFirst]
      exact hnodup
    rw [ih _ hn]
    exact updateFirst_map_lastWith r R' t hnodup

/-- When every operation key is already present, each upsert is a pure
update. -/
theorem upsertAll_all_update (R : List PRecord) :
    ∀ t : Store, (∀ r ∈ R, hasId t r.textID = true) →
      upsertAll t R = R.foldl updateFirst t := by
  induction R with
  | nil => intro t _; rfl
  | cons r R' ih =>
    intro t hall
    rw [upsertAll, List.foldl_cons, List.foldl_cons]
    have hr := hall r (List.mem_cons_self _ _)
    rw [hasId] at hr
    rcases hf : findId t r.textID with _ | d
    · rw [hf] at hr
      exact Bool.noConfusion hr
    · have hstep : applyUpdateOne t r = updateFirst t r := by
        rw [applyUpdateOne, hf]
      rw [hstep]
      apply ih
      intro a ha
      rw [hasId_iff_mem_idsOf, idsOf_updateFirst]
      rw [← hasId_iff_mem_idsOf]
      exact hall a (List.mem_cons_of_mem r ha)

/-- A batch whose keys are all present inserts nothing. -/
theorem bulk_write_upserts_zero (batch : List PRecord) :
    ∀ store : Store, (∀ r ∈ batch, hasId store r.textID = true) →
      (bulk_write store batch).2.1 = 0 := by
  induction batch with
  | nil => intro store _; rfl
  | cons r rest ih =>
    intro store hall
    have hr := hall r (List.mem_cons_self _ _)
    rw [hasId] at hr
    rcases hf : findId store r.textID with _ | d
    · rw [hf] at hr
      exact Bool.noConfusion hr
    · rw [bulk_write, hf]
      apply ih
      intro a ha
      rw [hasId_iff_mem_idsOf, idsOf_updateFirst, ← hasId_iff_mem_idsOf]
      exact hall a (List.mem_cons_of_mem r ha)

theorem runBatches_nofail_store (bs : List (List PRecord)) :
    ∀ (i : Nat) (st : WriteReport),
      (runBatches (fun _ => false) i bs st).store = upsertAll st.store bs.flatten := by
  induction bs with
  | nil => intro i st; rfl
  | cons b bs' ih =>
    intro i st
    rw [runBatches]
    simp only [if_neg (by simp : ¬ (fun _ : Nat => false) i = true)]
    rw [ih]
    simp only [List.flatten_cons, upsertAll, bulk_write_store, List.foldl_append]

theorem runBatches_nofail_upserts (bs : List (List PRecord)) :
    ∀ (i : Nat) (st : WriteReport),
      (∀ r ∈ bs.flatten, hasId st.store r.textID = true) →
      (runBatches (fun _ => false) i bs st).upsert_count = st.upsert_count := by
  induction bs with
  | nil => intro i st _; rfl
  | cons b bs' ih =>
    intro i st hall
    have hhead : ∀ r ∈ b, hasId st.store r.textID = true := by
      intro r hr
      exact hall r (by rw [List.flatten_cons]; exact List.mem_append_left _ hr)
    have htail : ∀ r ∈ bs'.flatten, hasId (bulk_write st.store b).1 r.textID = true := by
      intro r hr
      rw [bulk_write_store]
      apply hasId_upsertAll_mono
      exact hall r (by rw [List.flatten_cons]; exact List.mem_append_right _ hr)
    rw [runBatches]
    simp only [if_neg (by simp : ¬ (fun _ : Nat => false) i = true)]
    rw [ih _ _ htail]
    simp only [bulk_write_upserts_zero b st.store hhead, Nat.add_zero]

/-- On a run with no batch failures, the store ends as the sequential
application of every upsert operation. -/
theorem writeOk_store (s : Store) (R : List PRecord) :
    (writeOk s R).store = upsertAll s R := by
  rw [writeOk, write, runBatches_nofail_store, chunked_flatten]

/-- C2: writing the same record batch twice (all batches accepted)
leaves the store exactly as a single write does, and the second call
reports an upserted (inserted) count of 0, provided the store satisfies
its uniqueness invariant on `textID`. -/
theorem c2_write_idempotent (s : Store) (R : List PRecord)
    (hnodup : (idsOf s).Nodup) :
    (writeOk (writeOk s R).store R).store = (writeOk s R).store ∧
    (writeOk (writeOk s R).store R).upsert_count = 0 := by
  have ht : (writeOk s R).store = upsertAll s R := writeOk_store s R
  have hnodup_t : (idsOf (upsertAll s R)).Nodup := nodup_upsertAll R s hnodup
  have hpresent : ∀ r ∈ R, hasId (upsertAll s R) r.textID = true :=
    fun r hr => hasId_upsertAll_of_mem hr s
  constructor
  · rw [writeOk_store, ht]
    rw [upsertAll_all_update R _ hpresent]
    rw [foldl_updateFirst_map R _ hnodup_t]
    have hid : ∀ d ∈ upsertAll s R, (lastWith d.textID R).getD d = id d := by
      intro d hd
      rcases upsertAll_mem_char R s hnodup d hd with ⟨_, hnone⟩ | hlast
      · rw [(lastWith_eq_none_iff _ _).mpr hnone]
        rfl
      · rw [hlast]
        rfl
    rw [List.map_congr_left hid, List.map_id]
  · rw [writeOk, write]
    apply runBatches_nofail_upserts
    intro r hr
    rw [chunked_flatten] at hr
    rw [ht]
    exact hpresent r hr

/-- A first sample raw record. -/
def sampleRecord : PRecord :=
  ⟨"t1", "good", "positive", "morning", "21-30", 0⟩

/-- A second raw record with the same `textID` but different fields. -/
def sampleRecord2 : PRecord :=
  ⟨"t1", "bad", "negative", "night", "21-30", 1⟩

/-- Witness for C2 at the empty store and a one-record batch. -/
theorem c2_write_idempotent_witness :
    (writeOk (writeOk [] [sampleRecord]).store [sampleRecord]).store =
      (writeOk [] [sampleRecord]).store ∧
    (writeOk (writeOk [] [sampleRecord]).store [sampleRecord]).upsert_count = 0 :=
  c2_write_idempotent [] [sampleRecord] (by decide)

/-- C4: when the input contains a record with key `i`, the store after a
successful write holds exactly one document with that key, and that
document is the record processed last among those with key `i` (so a
repeated `textID` overwrites instead of duplicating). -/
theorem c4_unique_last_wins (s : Store) (R : List PRecord) (i : String)
    (hnodup : (idsOf s).Nodup) (hex : ∃ r ∈ R, r.textID = i) :
    (idsOf (writeOk s R).store).count i = 1 ∧
    (∀ d ∈ (writeOk s R).store, d.textID = i → lastWith i R = some d) := by
  rw [writeOk_store]
  rcases hex with ⟨r, hr, hri⟩
  have hhas : hasId (upsertAll s R) i = true := by
    have := hasId_upsertAll_of_mem hr s
    rw [hri] at this
    exact this
  have hnodup' : (idsOf (upsertAll s R)).Nodup := nodup_upsertAll R s hnodup
  constructor
  · have hmem : i ∈ idsOf (upsertAll s R) := (hasId_iff_mem_idsOf _ i).mp hhas
    have h1 : 0 < (idsOf (upsertAll s R)).count i := List.count_pos_iff.mpr hmem
    have h2 : (idsOf (upsertAll s R)).count i ≤ 1 :=
      List.nodup_iff_count_le_one.mp hnodup' i
    omega
  · intro d hd hdi
    rcases upsertAll_mem_char R s hnodup d hd with ⟨_, hnone⟩ | hlast
    · exact absurd (hri.trans hdi.symm) (hnone r hr)
    · rw [← hdi]
      exact hlast

/-- Witness for C4: two records sharing `textID` `"t1"` with different
text leave one document, the one processed last. -/
theorem c4_unique_last_wins_witness :
    (idsOf (writeOk [] [sampleRecord, sampleRecord2]).store).count "t1" = 1 ∧
    lastWith "t1" [sampleRecord, sampleRecord2] = some sampleRecord2 := by
  have h := c4_unique_last_wins [] [sampleRecord, sampleRecord2] "t1" (by decide)
    ⟨sampleRecord, by decide, by decide⟩
  exact ⟨h.1, h.2 sampleRecord2 (by decide) (by decide)⟩

/-- The batches actually submitted with success: those whose index the
failure oracle accepts. -/
def keptBatches (fail : Nat → Bool) : Nat → List (List PRecord) → List (List PRecord)
  | _, [] => []
  | i, b :: bs =>
    if fail i then keptBatches fail (i + 1) bs
    else b :: keptBatches fail (i + 1) bs

/-- The total operation count of the failing batches. -/
def failedSize (fail : Nat → Bool) : Nat → List (List PRecord) → Nat
  | _, [] => 0
  | i, b :: bs => (if fail i then b.length else 0) + failedSize fail (i + 1) bs

theorem runBatches_store_kept (fail : Nat → Bool) (bs : List (List PRecord)) :
    ∀ (i : Nat) (st : WriteReport),
      (runBatches fail i bs st).store =
        upsertAll st.store (keptBatches fail (i) bs).flatten := by
  induction bs with
  | nil => intro i st; rfl
  | cons b bs' ih =>
    intro i st
    rw [runBatches, keptBatches]
    by_cases hf : fail i
    · rw [if_pos hf, if_pos hf, ih]
    · rw [if_neg hf, if_neg hf, ih]
      simp only [List.flatten_cons, upsertAll, bulk_write_store, List.foldl_append]

theorem runBatches_error_failed (fail : Nat → Bool) (bs : List (List PRecord)) :
    ∀ (i : Nat) (st : WriteReport),
      (runBatches fail i bs st).error_count =
        st.error_count + failedSize fail (i) bs := by
  induction bs with
  | nil => intro i st; simp [failedSize, runBatches]
  | cons b bs' ih =>
    intro i st
    rw [runBatches, failedSize]
    by_cases hf : fail i
    · rw [if_pos hf, if_pos hf, ih]
      simp only
      omega
    · rw [if_neg hf, if_neg hf, ih]
      simp only
      omega

/-- C7: the writer slices its operations into batches of at most 1000
(`batch_size`); the slices partition the input; and under any pattern
of per-batch store failures, the final store is the application of
exactly the non-failing batches (so a failure never blocks later
batches and is never retried) while the error tally accumulates the
record counts of the failing batches. -/
theorem c7_batch_isolation (fail : Nat → Bool) (s : Store) (records : List PRecord) :
    (∀ b ∈ chunked records, b.length ≤ batch_size) ∧
    (chunked records).flatten = records ∧
    (write fail s records).store =
      upsertAll s (keptBatches fail 0 (chunked records)).flatten ∧
    (write fail s records).error_count = failedSize fail 0 (chunked records) := by
  refine ⟨fun b hb => chunkedGo_length_le _ _ b hb, chunked_flatten records, ?_, ?_⟩
  · rw [write, runBatches_store_kept]
  · rw [write, runBatches_error_failed]
    simp only
    omega

/-- Witness for C7: with the first batch failing, a one-record write
leaves the store empty, counts the record in the error tally, and the
single batch respects the size bound. -/
theorem c7_batch_isolation_witness :
    (write (fun j => decide (j = 0)) [] [sampleRecord]).store = [] ∧
    (write (fun j => decide (j = 0)) [] [sampleRecord]).error_count = 1 ∧
    [sampleRecord].length ≤ batch_size := by
  have h := c7_batch_isolation (fun j => decide (j = 0)) [] [sampleRecord]
  refine ⟨?_, ?_, h.1 [sampleRecord] (by decide)⟩
  · rw [h.2.2.1]
    decide
  · rw [h.2.2.2]
    decide

end SentimentPipeline
